import Mathlib

set_option maxHeartbeats 1000000

/- ===================================================================
   Shallow embedding of psdr/lipschitz.py
   ===================================================================

   The repository estimates a Lipschitz matrix by semidefinite
   programming (class LipschitzMatrix), exposes pointwise and
   domain-wide bounds built from that matrix, and has a scalar
   specialization (class LipschitzConstant).  The definitions below
   translate the relevant functions; theorems about the claims follow
   after the definitions and the generic helper lemmas.
-/

/- ----------------- generic linear-algebra vocabulary -------------- -/

/-- Quadratic form `yᵀ H y`, the value of `cp.quad_form(y, H)`. -/
def quadForm {m : ℕ} {R : Type} [CommRing R] (H : Matrix (Fin m) (Fin m) R)
    (y : Fin m → R) : R :=
  Matrix.dotProduct y (H.mulVec y)

/-- Outer product `np.outer(g, g)`, the rank-one matrix `g gᵀ`. -/
def outerProd {m : ℕ} {R : Type} [CommRing R] (g : Fin m → R) :
    Matrix (Fin m) (Fin m) R :=
  Matrix.vecMulVec g g

/-- Loewner order `A ⪯ B` stated through quadratic forms:
every direction sees at least as much energy from `B` as from `A`. -/
def loewnerLE {m : ℕ} {R : Type} [CommRing R] [Preorder R]
    (A B : Matrix (Fin m) (Fin m) R) : Prop :=
  ∀ v : Fin m → R, quadForm A v ≤ quadForm B v

/-- Symmetric positive semidefiniteness, the meaning of a cvxpy
variable declared with `PSD = True`. -/
def isPSD {m : ℕ} {R : Type} [CommRing R] [Preorder R]
    (H : Matrix (Fin m) (Fin m) R) : Prop :=
  H.IsSymm ∧ ∀ v : Fin m → R, 0 ≤ quadForm H v

/-- The index pairs visited by the Python double loop
`for i in range(N): for j in range(i+1, N):`. -/
def pythonPairs (N : ℕ) : List (ℕ × ℕ) :=
  (List.range N).flatMap (fun i => (List.range' (i+1) (N - (i+1))).map (fun j => (i, j)))

/- ----------------- C1: the cvxpy problem ------------------------- -/

/-- One cvxpy constraint appended by `_build_lipschitz_matrix_cvxpy`:
either a scalar inequality `lhs <= quad_form(y, H)` for a sample pair,
or a PSD-order constraint `outer(g, g) << H` for a gradient. -/
inductive CvxConstraint (m : ℕ) where
  | sampleIneq (lhs : ℚ) (y : Fin m → ℚ)
  | gradPSD (g : Fin m → ℚ)

/-- Satisfaction of one constraint by a candidate matrix `H`. -/
def CvxConstraint.sat {m : ℕ} (H : Matrix (Fin m) (Fin m) ℚ) :
    CvxConstraint m → Prop
  | .sampleIneq lhs y => lhs ≤ quadForm H y
  | .gradPSD g => loewnerLE (outerProd g) H

/-- The convex program handed to the solver: a minimization flag, the
PSD flag on the matrix variable, the objective, and the constraint
list in the order the code appends them. -/
structure CvxProblem (m : ℕ) where
  minimize : Bool
  psdVariable : Bool
  objective : Matrix (Fin m) (Fin m) ℚ → ℚ
  constraints : List (CvxConstraint m)

/-- A matrix is feasible for the program when it meets the PSD
declaration of the variable and every listed constraint. -/
def CvxProblem.feasible {m : ℕ} (P : CvxProblem m)
    (H : Matrix (Fin m) (Fin m) ℚ) : Prop :=
  (P.psdVariable = true → isPSD H) ∧ ∀ c ∈ P.constraints, c.sat H

/-- Shallow embedding of `LipschitzMatrix._build_lipschitz_matrix_cvxpy`
(lipschitz.py lines 165-188): the variable is `cp.Variable(..., PSD=True)`;
for every `i < j < len(X)` the constraint
`(abs(fX[i]-fX[j]) - epsilon)**2 <= quad_form(X[i]-X[j], H)` is appended,
then `np.outer(g, g) << H` for every gradient `g`; the problem is
`cp.Problem(cp.Minimize(cp.trace(H)), constraints)`. -/
def buildLipschitzMatrixCvxpy {m : ℕ} (X : List (Fin m → ℚ)) (fX : List ℚ)
    (grads : List (Fin m → ℚ)) (epsilon : ℚ) : CvxProblem m :=
  { minimize := true
    psdVariable := true
    objective := Matrix.trace
    constraints :=
      (pythonPairs X.length).map (fun ij =>
        CvxConstraint.sampleIneq ((|fX.getD ij.1 0 - fX.getD ij.2 0| - epsilon)^2)
          (X.getD ij.1 0 - X.getD ij.2 0))
      ++ grads.map CvxConstraint.gradPSD }

/- ----------------- real-vector vocabulary ------------------------ -/

noncomputable section

/-- View a plain real vector as a point of Euclidean space, so that
`‖toE p‖` is `np.linalg.norm(p)`, the Euclidean norm. -/
def toE {m : ℕ} (p : Fin m → ℝ) : EuclideanSpace ℝ (Fin m) := p

/-- The transformed point `L.dot(x)` used as the metric throughout the
bounding code. -/
def lvec {m : ℕ} (L : Matrix (Fin m) (Fin m) ℝ) (x : Fin m → ℝ) :
    EuclideanSpace ℝ (Fin m) :=
  toE (L.mulVec x)

/- ----------------- C2: fit post-processing ----------------------- -/

/-- Embedding of `LipschitzMatrix.fit` line 135: the exposed matrix
`H = scale**2 * U.dot(diag(maximum(ew, 0)).dot(U.T))`, with the
negative eigenvalues coming from solver error clipped to zero. -/
def fitH {m : ℕ} (scale : ℝ) (ew : Fin m → ℝ)
    (U : Matrix (Fin m) (Fin m) ℝ) : Matrix (Fin m) (Fin m) ℝ :=
  scale^2 • (U * Matrix.diagonal (fun i => max (ew i) 0) * U.transpose)

/-- Embedding of `LipschitzMatrix.fit` line 139: the exposed matrix
`L = scale * U.dot(diag(sqrt(maximum(ew, 0))).dot(U.T))`. -/
def fitL {m : ℕ} (scale : ℝ) (ew : Fin m → ℝ)
    (U : Matrix (Fin m) (Fin m) ℝ) : Matrix (Fin m) (Fin m) ℝ :=
  scale • (U * Matrix.diagonal (fun i => Real.sqrt (max (ew i) 0)) * U.transpose)

/- ----------------- C3/C4: pointwise bounds ----------------------- -/

/-- One lower-envelope term `fx - dist` of `bounds` (line 325). -/
def lbTerm {m : ℕ} (L : Matrix (Fin m) (Fin m) ℝ) (xt : Fin m → ℝ)
    (s : (Fin m → ℝ) × ℝ) : EReal :=
  ((s.2 - ‖lvec L s.1 - lvec L xt‖ : ℝ) : EReal)

/-- One upper-envelope term `fx + dist` of `bounds` (line 326). -/
def ubTerm {m : ℕ} (L : Matrix (Fin m) (Fin m) ℝ) (xt : Fin m → ℝ)
    (s : (Fin m → ℝ) × ℝ) : EReal :=
  ((s.2 + ‖lvec L s.1 - lvec L xt‖ : ℝ) : EReal)

/-- Embedding of `LipschitzMatrix.bounds` (lines 297-328) at one test point: start
from `(-inf, +inf)` and fold over the samples, taking
`lb = max(lb, fx - dist)` and `ub = min(ub, fx + dist)` where
`dist = ‖L x_i - L x_t‖`. -/
def boundsAt {m : ℕ} (L : Matrix (Fin m) (Fin m) ℝ)
    (samples : List ((Fin m → ℝ) × ℝ)) (xt : Fin m → ℝ) : EReal × EReal :=
  samples.foldl
    (fun b s => (max b.1 (lbTerm L xt s), min b.2 (ubTerm L xt s))) (⊥, ⊤)

/- ----------------- C5/C6: LipschitzConstant.fit ------------------ -/

/-- Shallow embedding of `LipschitzConstant.fit` (lipschitz.py lines
373-405), translated step by step.  The guard
`if self.epsilon is None: assert grads is None, "Cannot compute
epsilon-Lipschitz constant using gradient information"` raises exactly
when `epsilon` is absent and gradients are supplied.  When `X` is
supplied, evaluating the comprehension over `combinations(range(M), 2)`
raises `NameError` because `M` is defined nowhere in scope (neither in
the function nor at module level).  Otherwise the gradient branch takes
`max(0, np.max([norm(g) for g in grads]))`, `np.max` raising `ValueError`
on an empty list. -/
def fitConstant {m : ℕ} (epsilon : Option ℝ)
    (X : Option (List ((Fin m → ℝ) × ℝ)))
    (grads : Option (List (Fin m → ℝ))) : Except String ℝ :=
  if epsilon.isNone && grads.isSome then
    Except.error "AssertionError: Cannot compute epsilon-Lipschitz constant using gradient information"
  else if X.isSome then
    Except.error "NameError: name M is not defined"
  else
    match grads with
    | none => Except.ok 0
    | some [] => Except.error "ValueError: zero-size array to reduction operation maximum"
    | some (g :: gs) =>
        Except.ok (max 0 ((gs.map (fun v => ‖toE v‖)).foldl max ‖toE g‖))

/- ----------------- C7: bounds_domain ----------------------------- -/

/-- The value of `np.max` of a list: the running maximum starting from the first
element.  `np.max` raises on an empty list; the callers below only
apply it to nonempty lists, so the empty case carries a junk value. -/
def npMaxList : List ℝ → ℝ
  | [] => 0
  | h :: t => t.foldl max h

/-- The value of `np.min` of a list, mirror image of `npMaxList`. -/
def npMinList : List ℝ → ℝ
  | [] => 0
  | h :: t => t.foldl min h

/-- Embedding of `LowerBound.eval` (lines 419-422): the vector of values
`fX_i - ‖L x - L x_i‖` over the samples. -/
def lowerBoundEval {m : ℕ} (L : Matrix (Fin m) (Fin m) ℝ)
    (samples : List ((Fin m → ℝ) × ℝ)) (x : Fin m → ℝ) : List ℝ :=
  samples.map (fun s => s.2 - ‖lvec L x - lvec L s.1‖)

/-- Embedding of `UpperBound.eval` (lines 438-441): the vector of values
`-(fX_i + ‖L x - L x_i‖)` over the samples. -/
def upperBoundEval {m : ℕ} (L : Matrix (Fin m) (Fin m) ℝ)
    (samples : List ((Fin m → ℝ) × ℝ)) (x : Fin m → ℝ) : List ℝ :=
  samples.map (fun s => -(s.2 + ‖lvec L x - lvec L s.1‖))

/-- Embedding of `LipschitzMatrix.bounds_domain` (lines 330-366) with its external
collaborators abstracted: `X0` is the candidate list returned by
`candidate_furthest_points`, and `searchLower`/`searchUpper` give the
point returned by the external `minimax` search started at a candidate
for the two objectives.  Per candidate the code appends
`np.max(lower_bound(x))` to `lbs` and `np.min(-upper_bound(x))` to
`ubs`, and finally returns `(np.min(lbs), np.max(ubs))`. -/
def boundsDomain {m : ℕ} (L : Matrix (Fin m) (Fin m) ℝ)
    (samples : List ((Fin m → ℝ) × ℝ)) (X0 : List (Fin m → ℝ))
    (searchLower searchUpper : (Fin m → ℝ) → (Fin m → ℝ)) : ℝ × ℝ :=
  let lbs := X0.map (fun x0 => npMaxList (lowerBoundEval L samples (searchLower x0)))
  let ubs := X0.map (fun x0 =>
    npMinList ((upperBoundEval L samples (searchUpper x0)).map (fun t => -t)))
  (npMinList lbs, npMaxList ubs)

/- ----------------- C8/C9: cvxopt pair constraints ---------------- -/

open scoped Classical

/-- One normalized pair constraint of `_build_lipschitz_matrix_cvxopt`
(lines 256-266): for a pair `(i, j)` the code forms `p = X[i] - X[j]`,
`p_norm = np.linalg.norm(p)`, quadratic-form coefficients from the unit
vector `p / p_norm`, and the right-hand side
`(abs(fX[i] - fX[j]) - epsilon)**2 / p_norm**2`.  The divisions by
`p_norm` are partial: a coincident pair has `p_norm = 0` and the
division is undefined, which the embedding makes explicit by returning
`none` in that case. -/
def cvxoptPairConstraint {m : ℕ} (X : List (Fin m → ℝ)) (fX : List ℝ)
    (epsilon : ℝ) (ij : ℕ × ℕ) : Option ((Fin m → ℝ) × ℝ) :=
  let p := X.getD ij.1 0 - X.getD ij.2 0
  if ‖toE p‖ = 0 then none
  else some ((fun k => p k / ‖toE p‖),
    (|fX.getD ij.1 0 - fX.getD ij.2 0| - epsilon)^2 / ‖toE p‖^2)

/-- All pair constraints of the cvxopt path, over the same Python
double loop; defined exactly when no pair divides by a zero pairwise
distance. -/
def cvxoptSampleConstraints {m : ℕ} (X : List (Fin m → ℝ)) (fX : List ℝ)
    (epsilon : ℝ) : Option (List ((Fin m → ℝ) × ℝ)) :=
  (pythonPairs X.length).mapM (cvxoptPairConstraint X fX epsilon)

/- ----------------- C10: LowerBound.grad / UpperBound.grad -------- -/

/-- Embedding of `LowerBound.grad` (lines 424-430): with `y = L x` and `y_i = L x_i`,
row `i` of the Jacobian is `-(y - y_i)/norms[i]` for the rows with
`norms[i] > 0` and remains the zero row otherwise. -/
def lowerBoundGrad {m : ℕ} (L : Matrix (Fin m) (Fin m) ℝ)
    (X : List (Fin m → ℝ)) (x : Fin m → ℝ) : List (Fin m → ℝ) :=
  X.map (fun xi =>
    if 0 < ‖lvec L x - lvec L xi‖ then
      fun j => -((L.mulVec x j - L.mulVec xi j) / ‖lvec L x - lvec L xi‖)
    else 0)

/-- Embedding of `UpperBound.grad` (lines 443-449), textually identical to
`LowerBound.grad` in the source. -/
def upperBoundGrad {m : ℕ} (L : Matrix (Fin m) (Fin m) ℝ)
    (X : List (Fin m → ℝ)) (x : Fin m → ℝ) : List (Fin m → ℝ) :=
  X.map (fun xi =>
    if 0 < ‖lvec L x - lvec L xi‖ then
      fun j => -((L.mulVec x j - L.mulVec xi j) / ‖lvec L x - lvec L xi‖)
    else 0)

end

/- ----------------- helper lemmas --------------------------------- -/

theorem psdr_foldl_max_init_le {α β : Type*} [LinearOrder β] (v : α → β)
    (l : List α) : ∀ a : β, a ≤ l.foldl (fun x c => max x (v c)) a := by
  induction l with
  | nil => intro a; exact le_refl a
  | cons c l ih => intro a; exact le_trans (le_max_left a (v c)) (ih _)

theorem psdr_foldl_max_of_mem {α β : Type*} [LinearOrder β] (v : α → β)
    (l : List α) (c : α) (hc : c ∈ l) :
    ∀ a : β, v c ≤ l.foldl (fun x c => max x (v c)) a := by
  induction l with
  | nil => cases hc
  | cons d l ih =>
      intro a
      rcases List.mem_cons.mp hc with h | h
      · subst h
        exact le_trans (le_max_right a (v c)) (psdr_foldl_max_init_le v l _)
      · exact ih h (max a (v d))

theorem psdr_foldl_max_le {α β : Type*} [LinearOrder β] (v : α → β)
    (l : List α) (z : β) (hl : ∀ c ∈ l, v c ≤ z) :
    ∀ a : β, a ≤ z → l.foldl (fun x c => max x (v c)) a ≤ z := by
  induction l with
  | nil => intro a ha; exact ha
  | cons d l ih =>
      intro a ha
      exact ih (fun c hc => hl c (List.mem_cons_of_mem d hc)) _
        (max_le ha (hl d (List.mem_cons_self d l)))

theorem psdr_foldl_max_cases {α β : Type*} [LinearOrder β] (v : α → β)
    (l : List α) : ∀ a : β,
    l.foldl (fun x c => max x (v c)) a = a ∨
      ∃ c ∈ l, l.foldl (fun x c => max x (v c)) a = v c := by
  induction l with
  | nil => intro a; exact Or.inl rfl
  | cons d l ih =>
      intro a
      rcases ih (max a (v d)) with h | ⟨c, hc, h⟩
      · rcases max_choice a (v d) with hm | hm
        · exact Or.inl (h.trans hm)
        · exact Or.inr ⟨d, List.mem_cons_self d l, h.trans hm⟩
      · exact Or.inr ⟨c, List.mem_cons_of_mem d hc, h⟩

theorem psdr_foldl_min_init_le {α β : Type*} [LinearOrder β] (v : α → β)
    (l : List α) : ∀ a : β, l.foldl (fun x c => min x (v c)) a ≤ a := by
  induction l with
  | nil => intro a; exact le_refl a
  | cons c l ih => intro a; exact le_trans (ih _) (min_le_left a (v c))

theorem psdr_foldl_min_of_mem {α β : Type*} [LinearOrder β] (v : α → β)
    (l : List α) (c : α) (hc : c ∈ l) :
    ∀ a : β, l.foldl (fun x c => min x (v c)) a ≤ v c := by
  induction l with
  | nil => cases hc
  | cons d l ih =>
      intro a
      rcases List.mem_cons.mp hc with h | h
      · subst h
        exact le_trans (psdr_foldl_min_init_le v l _) (min_le_right a (v c))
      · exact ih h (min a (v d))

theorem psdr_le_foldl_min {α β : Type*} [LinearOrder β] (v : α → β)
    (l : List α) (z : β) (hl : ∀ c ∈ l, z ≤ v c) :
    ∀ a : β, z ≤ a → z ≤ l.foldl (fun x c => min x (v c)) a := by
  induction l with
  | nil => intro a ha; exact ha
  | cons d l ih =>
      intro a ha
      exact ih (fun c hc => hl c (List.mem_cons_of_mem d hc)) _
        (le_min ha (hl d (List.mem_cons_self d l)))

theorem psdr_foldl_min_cases {α β : Type*} [LinearOrder β] (v : α → β)
    (l : List α) : ∀ a : β,
    l.foldl (fun x c => min x (v c)) a = a ∨
      ∃ c ∈ l, l.foldl (fun x c => min x (v c)) a = v c := by
  induction l with
  | nil => intro a; exact Or.inl rfl
  | cons d l ih =>
      intro a
      rcases ih (min a (v d)) with h | ⟨c, hc, h⟩
      · rcases min_choice a (v d) with hm | hm
        · exact Or.inl (h.trans hm)
        · exact Or.inr ⟨d, List.mem_cons_self d l, h.trans hm⟩
      · exact Or.inr ⟨c, List.mem_cons_of_mem d hc, h⟩

theorem psdr_foldl_pair {γ β δ : Type*} (f : β → γ → β) (g : δ → γ → δ) :
    ∀ (l : List γ) (b : β) (d : δ),
      l.foldl (fun p c => (f p.1 c, g p.2 c)) (b, d) =
        (l.foldl f b, l.foldl g d) := by
  intro l
  induction l with
  | nil => intro b d; rfl
  | cons c l ih => intro b d; exact ih (f b c) (g d c)

theorem psdr_boundsAt_eq {m : ℕ} (L : Matrix (Fin m) (Fin m) ℝ)
    (samples : List ((Fin m → ℝ) × ℝ)) (xt : Fin m → ℝ) :
    boundsAt L samples xt =
      (samples.foldl (fun x s => max x (lbTerm L xt s)) ⊥,
       samples.foldl (fun x s => min x (ubTerm L xt s)) ⊤) :=
  psdr_foldl_pair (fun x s => max x (lbTerm L xt s))
    (fun x s => min x (ubTerm L xt s)) samples ⊥ ⊤

theorem psdr_mem_pythonPairs {N : ℕ} (ij : ℕ × ℕ) :
    ij ∈ pythonPairs N ↔ ij.1 < ij.2 ∧ ij.2 < N := by
  obtain ⟨i, j⟩ := ij
  simp only [pythonPairs, List.mem_flatMap, List.mem_map, List.mem_range,
    List.mem_range']
  constructor
  · rintro ⟨a, ha, j', ⟨k, hk, rfl⟩, h⟩
    obtain ⟨rfl, rfl⟩ := Prod.mk.injEq .. ▸ h
    refine ⟨?_, ?_⟩ <;> omega
  · rintro ⟨hij, hjN⟩
    exact ⟨i, by omega, j, ⟨j - (i+1), by omega, by omega⟩, rfl⟩

theorem psdr_list_range_map_sum (f : ℕ → ℕ) (n : ℕ) :
    ((List.range n).map f).sum = ∑ i ∈ Finset.range n, f i := by
  induction n with
  | zero => simp
  | succ k ih =>
      rw [List.range_succ, List.map_append, List.sum_append,
        Finset.sum_range_succ, ih]
      simp

theorem psdr_length_pythonPairs (N : ℕ) :
    (pythonPairs N).length = N * (N - 1) / 2 := by
  have h1 : (pythonPairs N).length
      = ((List.range N).map (fun i => N - (i+1))).sum := by
    rw [pythonPairs, List.flatMap_def, List.length_flatten, List.map_map]
    congr 1
    apply List.map_congr_left
    intro i _
    simp [Function.comp]
  rw [h1, psdr_list_range_map_sum]
  have h2 : ∀ i ∈ Finset.range N, N - (i+1) = N - 1 - i := by
    intro i _; omega
  rw [Finset.sum_congr rfl h2, Finset.sum_range_reflect (fun i => i) N,
    Finset.sum_range_id]

/- ----------------- C1 theorem ------------------------------------ -/

/-- C1: for every fit call with samples `X`, scaled values `fX`, scaled
gradients and scaled epsilon, the convex program handed to the solver
minimizes `trace H` over a symmetric PSD variable `H`, subject to one
constraint `(|fX_i - fX_j| - epsilon)^2 ≤ (x_i - x_j)ᵀ H (x_i - x_j)`
for each of the `N(N-1)/2` unordered sample pairs `i < j`, and one
PSD-order constraint `g gᵀ ⪯ H` per gradient. -/
theorem claim1_cvxpy_sdp_formulation {m : ℕ} (X : List (Fin m → ℚ))
    (fX : List ℚ) (grads : List (Fin m → ℚ)) (epsilon : ℚ)
    (H : Matrix (Fin m) (Fin m) ℚ) :
    (buildLipschitzMatrixCvxpy X fX grads epsilon).minimize = true ∧
    (buildLipschitzMatrixCvxpy X fX grads epsilon).objective = Matrix.trace ∧
    ((buildLipschitzMatrixCvxpy X fX grads epsilon).feasible H ↔
      (isPSD H ∧
       (∀ i j, i < j → j < X.length →
         (|fX.getD i 0 - fX.getD j 0| - epsilon)^2
           ≤ quadForm H (X.getD i 0 - X.getD j 0)) ∧
       (∀ g ∈ grads, loewnerLE (outerProd g) H))) ∧
    (buildLipschitzMatrixCvxpy X fX grads epsilon).constraints.length
      = X.length * (X.length - 1) / 2 + grads.length := by
  refine ⟨rfl, rfl, ?_, ?_⟩
  · constructor
    · rintro ⟨hpsd, hall⟩
      refine ⟨hpsd rfl, ?_, ?_⟩
      · intro i j hij hjN
        have hmem : CvxConstraint.sampleIneq
            ((|fX.getD i 0 - fX.getD j 0| - epsilon)^2)
            (X.getD i 0 - X.getD j 0)
            ∈ (buildLipschitzMatrixCvxpy X fX grads epsilon).constraints := by
          apply List.mem_append_left
          exact List.mem_map.mpr ⟨(i, j),
            (psdr_mem_pythonPairs (i, j)).mpr ⟨hij, hjN⟩, rfl⟩
        exact hall _ hmem
      · intro g hg
        have hmem : CvxConstraint.gradPSD g
            ∈ (buildLipschitzMatrixCvxpy X fX grads epsilon).constraints :=
          List.mem_append_right _ (List.mem_map.mpr ⟨g, hg, rfl⟩)
        exact hall _ hmem
    · rintro ⟨hpsd, hsamp, hgrad⟩
      refine ⟨fun _ => hpsd, ?_⟩
      intro c hc
      rcases List.mem_append.mp hc with hc | hc
      · obtain ⟨ij, hij, rfl⟩ := List.mem_map.mp hc
        obtain ⟨h1, h2⟩ := (psdr_mem_pythonPairs ij).mp hij
        exact hsamp ij.1 ij.2 h1 h2
      · obtain ⟨g, hg, rfl⟩ := List.mem_map.mp hc
        exact hgrad g hg
  · show ((pythonPairs X.length).map _ ++ grads.map _).length = _
    rw [List.length_append, List.length_map, List.length_map,
      psdr_length_pythonPairs]

theorem psdr_sandwich_isSymm {m : ℕ} (U : Matrix (Fin m) (Fin m) ℝ)
    (d : Fin m → ℝ) : (U * Matrix.diagonal d * U.transpose).IsSymm := by
  show (U * Matrix.diagonal d * U.transpose).transpose
      = U * Matrix.diagonal d * U.transpose
  rw [Matrix.transpose_mul, Matrix.transpose_mul, Matrix.transpose_transpose,
    Matrix.diagonal_transpose, ← Matrix.mul_assoc]

theorem psdr_sandwich_quadForm {m : ℕ} (U : Matrix (Fin m) (Fin m) ℝ)
    (d : Fin m → ℝ) (v : Fin m → ℝ) :
    quadForm (U * Matrix.diagonal d * U.transpose) v
      = ∑ i, d i * (U.transpose.mulVec v i * U.transpose.mulVec v i) := by
  unfold quadForm
  rw [← Matrix.mulVec_mulVec, ← Matrix.mulVec_mulVec, Matrix.dotProduct_mulVec,
    ← Matrix.mulVec_transpose]
  unfold Matrix.dotProduct
  refine Finset.sum_congr rfl (fun i _ => ?_)
  rw [Matrix.mulVec_diagonal]
  ring

/-- C2: after a successful fit with an orthogonal eigenvector matrix
`U` coming from the symmetric eigensolver, the exposed matrix `H` is
symmetric positive semidefinite (negative eigenvalues are clipped to
zero before reconstruction) and the exposed matrix `L` is its PSD
square root: `L` is symmetric and `L Lᵀ = H`. -/
theorem claim2_fit_H_psd_L_sqrt {m : ℕ} (scale : ℝ) (ew : Fin m → ℝ)
    (U : Matrix (Fin m) (Fin m) ℝ) (hU : U.transpose * U = 1) :
    (fitH scale ew U).IsSymm ∧
    (∀ v : Fin m → ℝ, 0 ≤ quadForm (fitH scale ew U) v) ∧
    (fitL scale ew U).IsSymm ∧
    fitL scale ew U * (fitL scale ew U).transpose = fitH scale ew U := by
  have hsymH : (U * Matrix.diagonal (fun i => max (ew i) 0) * U.transpose).transpose
      = U * Matrix.diagonal (fun i => max (ew i) 0) * U.transpose :=
    psdr_sandwich_isSymm U _
  have hsymL : (U * Matrix.diagonal (fun i => Real.sqrt (max (ew i) 0)) * U.transpose).transpose
      = U * Matrix.diagonal (fun i => Real.sqrt (max (ew i) 0)) * U.transpose :=
    psdr_sandwich_isSymm U _
  refine ⟨?_, ?_, ?_, ?_⟩
  · show (fitH scale ew U).transpose = fitH scale ew U
    unfold fitH
    rw [Matrix.transpose_smul, hsymH]
  · intro v
    have hq : quadForm (fitH scale ew U) v
        = scale^2 * quadForm
            (U * Matrix.diagonal (fun i => max (ew i) 0) * U.transpose) v := by
      unfold fitH quadForm
      rw [Matrix.smul_mulVec_assoc, Matrix.dotProduct_smul, smul_eq_mul]
    rw [hq, psdr_sandwich_quadForm]
    apply mul_nonneg (sq_nonneg scale)
    apply Finset.sum_nonneg
    intro i _
    exact mul_nonneg (le_max_right _ _) (mul_self_nonneg _)
  · show (fitL scale ew U).transpose = fitL scale ew U
    unfold fitL
    rw [Matrix.transpose_smul, hsymL]
  · unfold fitL fitH
    rw [Matrix.transpose_smul, hsymL, smul_mul_assoc, mul_smul_comm, smul_smul,
      ← pow_two]
    congr 1
    calc (U * Matrix.diagonal (fun i => Real.sqrt (max (ew i) 0)) * U.transpose)
          * (U * Matrix.diagonal (fun i => Real.sqrt (max (ew i) 0)) * U.transpose)
        = U * (Matrix.diagonal (fun i => Real.sqrt (max (ew i) 0))
            * (U.transpose * (U * (Matrix.diagonal (fun i => Real.sqrt (max (ew i) 0))
              * U.transpose)))) := by
          simp only [Matrix.mul_assoc]
      _ = U * (Matrix.diagonal (fun i => Real.sqrt (max (ew i) 0))
            * (Matrix.diagonal (fun i => Real.sqrt (max (ew i) 0)) * U.transpose)) := by
          rw [← Matrix.mul_assoc U.transpose U _, hU, Matrix.one_mul]
      _ = U * (Matrix.diagonal (fun i => Real.sqrt (max (ew i) 0))
            * Matrix.diagonal (fun i => Real.sqrt (max (ew i) 0))) * U.transpose := by
          simp only [Matrix.mul_assoc]
      _ = U * Matrix.diagonal (fun i => max (ew i) 0) * U.transpose := by
          have hdd : (fun i => Real.sqrt (max (ew i) 0)
              * Real.sqrt (max (ew i) 0)) = fun i => max (ew i) 0 := by
            funext i
            exact Real.mul_self_sqrt (le_max_right _ _)
          rw [Matrix.diagonal_mul_diagonal, hdd]

/-- C2 witness: dimension one, orthogonal `U = 1`, eigenvalue `-1`
(clipped to zero), scale `2`. -/
theorem claim2_witness :
    ((1 : Matrix (Fin 1) (Fin 1) ℝ).transpose * 1 = 1) ∧
    ((@fitH 1 2 (fun _ => -1) 1).IsSymm ∧
     (∀ v : Fin 1 → ℝ, 0 ≤ quadForm (@fitH 1 2 (fun _ => -1) 1) v) ∧
     (@fitL 1 2 (fun _ => -1) 1).IsSymm ∧
     @fitL 1 2 (fun _ => -1) 1 * (@fitL 1 2 (fun _ => -1) 1).transpose
       = @fitH 1 2 (fun _ => -1) 1) := by
  have h : (1 : Matrix (Fin 1) (Fin 1) ℝ).transpose * 1 = 1 := by
    rw [Matrix.transpose_one, Matrix.one_mul]
  exact ⟨h, claim2_fit_H_psd_L_sqrt 2 (fun _ => -1) 1 h⟩

theorem psdr_lvec_sub {m : ℕ} (L : Matrix (Fin m) (Fin m) ℝ)
    (x y : Fin m → ℝ) : lvec L (x - y) = lvec L x - lvec L y := by
  show toE (L.mulVec (x - y)) = _
  rw [Matrix.mulVec_sub]
  rfl

/-- C3: at every test point `x_t`, `bounds` returns as lower bound the
maximum over samples of `fX_i - ‖L(x_i - x_t)‖` and as upper bound the
minimum over samples of `fX_i + ‖L(x_i - x_t)‖`; the embedding
`boundsAt` is a pure function of `L`, the samples and the test point
alone. -/
theorem claim3_bounds_max_min {m : ℕ} (L : Matrix (Fin m) (Fin m) ℝ)
    (samples : List ((Fin m → ℝ) × ℝ)) (xt : Fin m → ℝ)
    (hne : samples ≠ []) :
    IsGreatest {y : EReal | ∃ s ∈ samples,
        y = ((s.2 - ‖lvec L (s.1 - xt)‖ : ℝ) : EReal)}
      (boundsAt L samples xt).1 ∧
    IsLeast {y : EReal | ∃ s ∈ samples,
        y = ((s.2 + ‖lvec L (s.1 - xt)‖ : ℝ) : EReal)}
      (boundsAt L samples xt).2 := by
  have htl : ∀ s : (Fin m → ℝ) × ℝ,
      ((s.2 - ‖lvec L (s.1 - xt)‖ : ℝ) : EReal) = lbTerm L xt s := by
    intro s; unfold lbTerm; rw [psdr_lvec_sub]
  have htu : ∀ s : (Fin m → ℝ) × ℝ,
      ((s.2 + ‖lvec L (s.1 - xt)‖ : ℝ) : EReal) = ubTerm L xt s := by
    intro s; unfold ubTerm; rw [psdr_lvec_sub]
  have hlb : (boundsAt L samples xt).1
      = samples.foldl (fun x s => max x (lbTerm L xt s)) ⊥ := by
    rw [psdr_boundsAt_eq]
  have hub : (boundsAt L samples xt).2
      = samples.foldl (fun x s => min x (ubTerm L xt s)) ⊤ := by
    rw [psdr_boundsAt_eq]
  obtain ⟨s0, hs0⟩ := List.exists_mem_of_ne_nil samples hne
  refine ⟨⟨?_, ?_⟩, ⟨?_, ?_⟩⟩
  · rcases psdr_foldl_max_cases (lbTerm L xt) samples ⊥ with hcase | ⟨c, hc, hcase⟩
    · exfalso
      have hmem := psdr_foldl_max_of_mem (lbTerm L xt) samples s0 hs0 ⊥
      rw [hcase] at hmem
      have hbot := le_bot_iff.mp hmem
      exact EReal.coe_ne_bot _ ((htl s0).trans hbot)
    · exact ⟨c, hc, by rw [htl, hlb]; exact hcase⟩
  · rintro y ⟨s, hs, rfl⟩
    rw [htl, hlb]
    exact psdr_foldl_max_of_mem (lbTerm L xt) samples s hs ⊥
  · rcases psdr_foldl_min_cases (ubTerm L xt) samples ⊤ with hcase | ⟨c, hc, hcase⟩
    · exfalso
      have hmem := psdr_foldl_min_of_mem (ubTerm L xt) samples s0 hs0 ⊤
      rw [hcase] at hmem
      have htop := top_le_iff.mp hmem
      exact EReal.coe_ne_top _ ((htu s0).trans htop)
    · exact ⟨c, hc, by rw [htu, hub, hcase]⟩
  · rintro y ⟨s, hs, rfl⟩
    rw [htu, hub]
    exact psdr_foldl_min_of_mem (ubTerm L xt) samples s hs ⊤

/-- C3 witness: a one-sample set in dimension one. -/
theorem claim3_witness :
    (([((fun _ => 0), 5)] : List ((Fin 1 → ℝ) × ℝ)) ≠ []) ∧
    (IsGreatest {y : EReal | ∃ s ∈ ([((fun _ => 0), 5)] : List ((Fin 1 → ℝ) × ℝ)),
        y = ((s.2 - ‖lvec (0 : Matrix (Fin 1) (Fin 1) ℝ) (s.1 - fun _ => 0)‖ : ℝ) : EReal)}
      (@boundsAt 1 0 [((fun _ => 0), 5)] (fun _ => 0)).1 ∧
     IsLeast {y : EReal | ∃ s ∈ ([((fun _ => 0), 5)] : List ((Fin 1 → ℝ) × ℝ)),
        y = ((s.2 + ‖lvec (0 : Matrix (Fin 1) (Fin 1) ℝ) (s.1 - fun _ => 0)‖ : ℝ) : EReal)}
      (@boundsAt 1 0 [((fun _ => 0), 5)] (fun _ => 0)).2) :=
  ⟨List.cons_ne_nil _ _,
    claim3_bounds_max_min 0 [((fun _ => 0), 5)] (fun _ => 0) (List.cons_ne_nil _ _)⟩

/-- C4: whenever the sample data is itself consistent with `L`
(`|fX_i - fX_j| ≤ ‖L(x_i - x_j)‖` for every pair), the bounds satisfy
`lb ≤ ub` at every test point, and at a test point coinciding with a
sample `x_i` they bracket that sample value: `lb ≤ fX_i ≤ ub`. -/
theorem claim4_bounds_bracket {m : ℕ} (L : Matrix (Fin m) (Fin m) ℝ)
    (samples : List ((Fin m → ℝ) × ℝ))
    (hcons : ∀ s ∈ samples, ∀ t ∈ samples, |s.2 - t.2| ≤ ‖lvec L (s.1 - t.1)‖) :
    (∀ xt, (boundsAt L samples xt).1 ≤ (boundsAt L samples xt).2) ∧
    (∀ s ∈ samples, (boundsAt L samples s.1).1 ≤ ((s.2 : ℝ) : EReal) ∧
      ((s.2 : ℝ) : EReal) ≤ (boundsAt L samples s.1).2) := by
  have hdist : ∀ (s t : (Fin m → ℝ) × ℝ) (xt : Fin m → ℝ),
      ‖lvec L (s.1 - t.1)‖
        ≤ ‖lvec L s.1 - lvec L xt‖ + ‖lvec L t.1 - lvec L xt‖ := by
    intro s t xt
    rw [psdr_lvec_sub]
    calc ‖lvec L s.1 - lvec L t.1‖
        = ‖(lvec L s.1 - lvec L xt) - (lvec L t.1 - lvec L xt)‖ := by
          rw [sub_sub_sub_cancel_right]
      _ ≤ ‖lvec L s.1 - lvec L xt‖ + ‖lvec L t.1 - lvec L xt‖ :=
          norm_sub_le _ _
  constructor
  · intro xt
    have hlb : (boundsAt L samples xt).1
        = samples.foldl (fun x s => max x (lbTerm L xt s)) ⊥ := by
      rw [psdr_boundsAt_eq]
    have hub : (boundsAt L samples xt).2
        = samples.foldl (fun x s => min x (ubTerm L xt s)) ⊤ := by
      rw [psdr_boundsAt_eq]
    rw [hlb, hub]
    apply psdr_foldl_max_le
    · intro s hs
      apply psdr_le_foldl_min
      · intro t ht
        unfold lbTerm ubTerm
        rw [EReal.coe_le_coe_iff]
        have h1 : s.2 - t.2 ≤ |s.2 - t.2| := le_abs_self _
        have h2 := hcons s hs t ht
        have h3 := hdist s t xt
        linarith
      · exact le_top
    · exact bot_le
  · intro s hs
    have hlb : (boundsAt L samples s.1).1
        = samples.foldl (fun x t => max x (lbTerm L s.1 t)) ⊥ := by
      rw [psdr_boundsAt_eq]
    have hub : (boundsAt L samples s.1).2
        = samples.foldl (fun x t => min x (ubTerm L s.1 t)) ⊤ := by
      rw [psdr_boundsAt_eq]
    constructor
    · rw [hlb]
      apply psdr_foldl_max_le
      · intro t ht
        unfold lbTerm
        rw [EReal.coe_le_coe_iff]
        have h1 : t.2 - s.2 ≤ |t.2 - s.2| := le_abs_self _
        have h2 := hcons t ht s hs
        have h3 : ‖lvec L (t.1 - s.1)‖ = ‖lvec L t.1 - lvec L s.1‖ := by
          rw [psdr_lvec_sub]
        linarith
      · exact bot_le
    · rw [hub]
      apply psdr_le_foldl_min
      · intro t ht
        unfold ubTerm
        rw [EReal.coe_le_coe_iff]
        have h1 : s.2 - t.2 ≤ |s.2 - t.2| := le_abs_self _
        have h2 := hcons s hs t ht
        have h3 : ‖lvec L (s.1 - t.1)‖ = ‖lvec L t.1 - lvec L s.1‖ := by
          rw [psdr_lvec_sub, norm_sub_rev]
        linarith
      · exact le_top

/-- C4 witness: a single sample with the zero Lipschitz matrix, whose
data is trivially self-consistent. -/
theorem claim4_witness :
    (∀ s ∈ ([((fun _ => 0), 5)] : List ((Fin 1 → ℝ) × ℝ)),
      ∀ t ∈ ([((fun _ => 0), 5)] : List ((Fin 1 → ℝ) × ℝ)),
        |s.2 - t.2| ≤ ‖lvec (0 : Matrix (Fin 1) (Fin 1) ℝ) (s.1 - t.1)‖) ∧
    ((∀ xt, (@boundsAt 1 0 [((fun _ => 0), 5)] xt).1
        ≤ (@boundsAt 1 0 [((fun _ => 0), 5)] xt).2) ∧
     (∀ s ∈ ([((fun _ => 0), 5)] : List ((Fin 1 → ℝ) × ℝ)),
        (@boundsAt 1 0 [((fun _ => 0), 5)] s.1).1 ≤ ((s.2 : ℝ) : EReal) ∧
        ((s.2 : ℝ) : EReal) ≤ (@boundsAt 1 0 [((fun _ => 0), 5)] s.1).2)) := by
  have hc : ∀ s ∈ ([((fun _ => 0), 5)] : List ((Fin 1 → ℝ) × ℝ)),
      ∀ t ∈ ([((fun _ => 0), 5)] : List ((Fin 1 → ℝ) × ℝ)),
        |s.2 - t.2| ≤ ‖lvec (0 : Matrix (Fin 1) (Fin 1) ℝ) (s.1 - t.1)‖ := by
    intro s hs t ht
    rw [List.mem_singleton] at hs ht
    subst hs; subst ht
    simp only [sub_self, abs_zero]
    exact norm_nonneg _
  exact ⟨hc, claim4_bounds_bracket 0 [((fun _ => 0), 5)] hc⟩

/-- C5: the input-contract guard of `LipschitzConstant.fit` is the
reverse of the claimed one.  A call combining a nonzero epsilon with a
gradient observation is accepted (the guard does not fire and the
gradient norm is returned), while a call supplying a gradient without
any epsilon is rejected with the assertion error. -/
theorem claim5_epsilon_gradient_guard_inverted :
    @fitConstant 1 (some 1) none (some [fun _ => 1])
      = Except.ok (max 0 ‖@toE 1 (fun _ => 1)‖) ∧
    @fitConstant 1 none none (some [fun _ => 1])
      = Except.error "AssertionError: Cannot compute epsilon-Lipschitz constant using gradient information" := by
  constructor <;> rfl

/-- C6: `LipschitzConstant.fit` on two samples does not compute the
pairwise slope maximum; it raises `NameError` because the loop is
written over `combinations(range(M), 2)` and `M` is undefined in the
function scope. -/
theorem claim6_fit_constant_nameerror :
    @fitConstant 1 none (some [((fun _ => 0), 0), ((fun _ => 1), 3)]) none
      = Except.error "NameError: name M is not defined" := rfl

theorem psdr_npMaxList_spec (l : List ℝ) (hl : l ≠ []) :
    npMaxList l ∈ l ∧ ∀ x ∈ l, x ≤ npMaxList l := by
  cases l with
  | nil => exact absurd rfl hl
  | cons h t =>
      constructor
      · show t.foldl max h ∈ h :: t
        have hcases : t.foldl max h = h ∨ ∃ c ∈ t, t.foldl max h = c :=
          psdr_foldl_max_cases (id : ℝ → ℝ) t h
        rcases hcases with hc | ⟨c, hc, hcase⟩
        · rw [hc]; exact List.mem_cons_self h t
        · rw [hcase]; exact List.mem_cons_of_mem h hc
      · intro x hx
        rcases List.mem_cons.mp hx with rfl | hx
        · exact (psdr_foldl_max_init_le (id : ℝ → ℝ) t x : x ≤ t.foldl max x)
        · exact (psdr_foldl_max_of_mem (id : ℝ → ℝ) t x hx h : x ≤ t.foldl max h)

theorem psdr_npMinList_spec (l : List ℝ) (hl : l ≠ []) :
    npMinList l ∈ l ∧ ∀ x ∈ l, npMinList l ≤ x := by
  cases l with
  | nil => exact absurd rfl hl
  | cons h t =>
      constructor
      · show t.foldl min h ∈ h :: t
        have hcases : t.foldl min h = h ∨ ∃ c ∈ t, t.foldl min h = c :=
          psdr_foldl_min_cases (id : ℝ → ℝ) t h
        rcases hcases with hc | ⟨c, hc, hcase⟩
        · rw [hc]; exact List.mem_cons_self h t
        · rw [hcase]; exact List.mem_cons_of_mem h hc
      · intro x hx
        rcases List.mem_cons.mp hx with rfl | hx
        · exact (psdr_foldl_min_init_le (id : ℝ → ℝ) t x : t.foldl min x ≤ x)
        · exact (psdr_foldl_min_of_mem (id : ℝ → ℝ) t x hx h : t.foldl min h ≤ x)

/-- C7: with a non-empty candidate set, `bounds_domain` returns as
lower bound the minimum over candidates of the per-candidate lower
result — itself the maximum over samples of `fX_i - ‖L(x_i - x)‖` at
the point `x` found by the minimax search from that candidate — and as
upper bound the maximum over candidates of the per-candidate upper
result, the minimum over samples of `fX_i + ‖L(x_i - x)‖` at the found
point. -/
theorem claim7_bounds_domain_reduction {m : ℕ} (L : Matrix (Fin m) (Fin m) ℝ)
    (samples : List ((Fin m → ℝ) × ℝ)) (X0 : List (Fin m → ℝ))
    (searchLower searchUpper : (Fin m → ℝ) → (Fin m → ℝ))
    (hX0 : X0 ≠ []) (hs : samples ≠ []) :
    IsLeast {y : ℝ | ∃ c ∈ X0,
        y = npMaxList (lowerBoundEval L samples (searchLower c))}
      (boundsDomain L samples X0 searchLower searchUpper).1 ∧
    (∀ c : Fin m → ℝ, IsGreatest {y : ℝ | ∃ s ∈ samples,
        y = s.2 - ‖lvec L (s.1 - searchLower c)‖}
      (npMaxList (lowerBoundEval L samples (searchLower c)))) ∧
    IsGreatest {y : ℝ | ∃ c ∈ X0,
        y = npMinList ((upperBoundEval L samples (searchUpper c)).map (fun t => -t))}
      (boundsDomain L samples X0 searchLower searchUpper).2 ∧
    (∀ c : Fin m → ℝ, IsLeast {y : ℝ | ∃ s ∈ samples,
        y = s.2 + ‖lvec L (s.1 - searchUpper c)‖}
      (npMinList ((upperBoundEval L samples (searchUpper c)).map (fun t => -t)))) := by
  have h1 : (boundsDomain L samples X0 searchLower searchUpper).1
      = npMinList (X0.map (fun x0 =>
          npMaxList (lowerBoundEval L samples (searchLower x0)))) := rfl
  have h2 : (boundsDomain L samples X0 searchLower searchUpper).2
      = npMaxList (X0.map (fun x0 =>
          npMinList ((upperBoundEval L samples (searchUpper x0)).map (fun t => -t)))) := rfl
  refine ⟨?_, ?_, ?_, ?_⟩
  · obtain ⟨hmem, hle⟩ := psdr_npMinList_spec
      (X0.map (fun x0 => npMaxList (lowerBoundEval L samples (searchLower x0))))
      (fun h => hX0 (List.map_eq_nil_iff.mp h))
    constructor
    · obtain ⟨c, hc, heq⟩ := List.mem_map.mp hmem
      exact ⟨c, hc, by rw [h1, ← heq]⟩
    · rintro y ⟨c, hc, rfl⟩
      rw [h1]
      exact hle _ (List.mem_map.mpr ⟨c, hc, rfl⟩)
  · intro c
    have hb : ∀ s : (Fin m → ℝ) × ℝ,
        s.2 - ‖lvec L (s.1 - searchLower c)‖
          = s.2 - ‖lvec L (searchLower c) - lvec L s.1‖ := by
      intro s; rw [psdr_lvec_sub, norm_sub_rev]
    obtain ⟨hmem, hub⟩ := psdr_npMaxList_spec
      (lowerBoundEval L samples (searchLower c))
      (fun h => hs (List.map_eq_nil_iff.mp h))
    constructor
    · obtain ⟨s, hsm, heq⟩ := List.mem_map.mp hmem
      exact ⟨s, hsm, by rw [hb s, ← heq]⟩
    · rintro y ⟨s, hsm, rfl⟩
      rw [hb s]
      exact hub _ (List.mem_map.mpr ⟨s, hsm, rfl⟩)
  · obtain ⟨hmem, hge⟩ := psdr_npMaxList_spec
      (X0.map (fun x0 =>
        npMinList ((upperBoundEval L samples (searchUpper x0)).map (fun t => -t))))
      (fun h => hX0 (List.map_eq_nil_iff.mp h))
    constructor
    · obtain ⟨c, hc, heq⟩ := List.mem_map.mp hmem
      exact ⟨c, hc, by rw [h2, ← heq]⟩
    · rintro y ⟨c, hc, rfl⟩
      rw [h2]
      exact hge _ (List.mem_map.mpr ⟨c, hc, rfl⟩)
  · intro c
    have hb : ∀ s : (Fin m → ℝ) × ℝ,
        s.2 + ‖lvec L (s.1 - searchUpper c)‖
          = s.2 + ‖lvec L (searchUpper c) - lvec L s.1‖ := by
      intro s; rw [psdr_lvec_sub, norm_sub_rev]
    have hrw : (upperBoundEval L samples (searchUpper c)).map (fun t => -t)
        = samples.map (fun s => s.2 + ‖lvec L (searchUpper c) - lvec L s.1‖) := by
      unfold upperBoundEval
      rw [List.map_map]
      refine List.map_congr_left (fun s _ => ?_)
      show -(-(s.2 + ‖lvec L (searchUpper c) - lvec L s.1‖))
          = s.2 + ‖lvec L (searchUpper c) - lvec L s.1‖
      rw [neg_neg]
    rw [hrw]
    obtain ⟨hmem, hle⟩ := psdr_npMinList_spec
      (samples.map (fun s => s.2 + ‖lvec L (searchUpper c) - lvec L s.1‖))
      (fun h => hs (List.map_eq_nil_iff.mp h))
    constructor
    · obtain ⟨s, hsm, heq⟩ := List.mem_map.mp hmem
      exact ⟨s, hsm, by rw [hb s, ← heq]⟩
    · rintro y ⟨s, hsm, rfl⟩
      rw [hb s]
      exact hle _ (List.mem_map.mpr ⟨s, hsm, rfl⟩)

/-- C7 witness: one candidate, one sample, zero matrix, identity
search oracles. -/
theorem claim7_witness :
    (([(fun _ => 0)] : List (Fin 1 → ℝ)) ≠ []) ∧
    (([((fun _ => 0), 5)] : List ((Fin 1 → ℝ) × ℝ)) ≠ []) ∧
    (IsLeast {y : ℝ | ∃ c ∈ ([(fun _ => 0)] : List (Fin 1 → ℝ)),
        y = npMaxList (lowerBoundEval (0 : Matrix (Fin 1) (Fin 1) ℝ)
          [((fun _ => 0), 5)] (id c))}
      (@boundsDomain 1 0 [((fun _ => 0), 5)] [(fun _ => 0)] id id).1 ∧
    (∀ c : Fin 1 → ℝ, IsGreatest {y : ℝ | ∃ s ∈ ([((fun _ => 0), 5)] : List ((Fin 1 → ℝ) × ℝ)),
        y = s.2 - ‖lvec (0 : Matrix (Fin 1) (Fin 1) ℝ) (s.1 - id c)‖}
      (npMaxList (lowerBoundEval (0 : Matrix (Fin 1) (Fin 1) ℝ)
        [((fun _ => 0), 5)] (id c)))) ∧
    IsGreatest {y : ℝ | ∃ c ∈ ([(fun _ => 0)] : List (Fin 1 → ℝ)),
        y = npMinList ((upperBoundEval (0 : Matrix (Fin 1) (Fin 1) ℝ)
          [((fun _ => 0), 5)] (id c)).map (fun t => -t))}
      (@boundsDomain 1 0 [((fun _ => 0), 5)] [(fun _ => 0)] id id).2 ∧
    (∀ c : Fin 1 → ℝ, IsLeast {y : ℝ | ∃ s ∈ ([((fun _ => 0), 5)] : List ((Fin 1 → ℝ) × ℝ)),
        y = s.2 + ‖lvec (0 : Matrix (Fin 1) (Fin 1) ℝ) (s.1 - id c)‖}
      (npMinList ((upperBoundEval (0 : Matrix (Fin 1) (Fin 1) ℝ)
        [((fun _ => 0), 5)] (id c)).map (fun t => -t))))) :=
  ⟨List.cons_ne_nil _ _, List.cons_ne_nil _ _,
    claim7_bounds_domain_reduction 0 [((fun _ => 0), 5)] [(fun _ => 0)] id id
      (List.cons_ne_nil _ _) (List.cons_ne_nil _ _)⟩

theorem psdr_toE_zero {m : ℕ} : toE (0 : Fin m → ℝ) = 0 := rfl

theorem psdr_mapM_isSome {α β : Type} (f : α → Option β) (l : List α)
    (h : ∀ a ∈ l, (f a).isSome = true) : (l.mapM f).isSome = true := by
  induction l with
  | nil => rfl
  | cons a t ih =>
      rw [List.mapM_cons]
      obtain ⟨b, hb⟩ := Option.isSome_iff_exists.mp (h a (List.mem_cons_self a t))
      obtain ⟨bs, hbs⟩ := Option.isSome_iff_exists.mp
        (ih (fun c hc => h c (List.mem_cons_of_mem _ hc)))
      rw [hb, hbs]
      rfl

/-- C8 counterexample: two coincident samples make the default cvxopt
constraint construction divide by the zero pairwise distance, so the
pair constraint is undefined rather than finite. -/
theorem claim8_counterexample :
    @cvxoptSampleConstraints 1 [(fun _ => 1), (fun _ => 1)] [0, 1] 0 = none := by
  have hpair : @cvxoptPairConstraint 1 [(fun _ => 1), (fun _ => 1)] [0, 1] 0 (0, 1)
      = none := by
    unfold cvxoptPairConstraint
    simp [sub_self, psdr_toE_zero]
  have hp : pythonPairs ([(fun _ => 1), (fun _ => 1)] : List (Fin 1 → ℝ)).length
      = [(0, 1)] := rfl
  show (pythonPairs ([(fun _ => 1), (fun _ => 1)] : List (Fin 1 → ℝ)).length).mapM
      (@cvxoptPairConstraint 1 [(fun _ => 1), (fun _ => 1)] [0, 1] 0) = none
  rw [hp, List.mapM_cons, hpair]
  rfl

/-- C8 amended: `fit` does not reject repeated input points, and for
every pair of distinct points the default cvxopt constraint
construction is well-defined with finite coefficients; but a pair of
coincident points `x_i = x_j` makes it divide by the zero pairwise
distance (`claim8_counterexample`), so the constraint coefficients are
not finite in that case. -/
theorem claim8_amended_distinct_defined {m : ℕ} (X : List (Fin m → ℝ))
    (fX : List ℝ) (epsilon : ℝ)
    (hdist : ∀ i j, i < j → j < X.length → X.getD i 0 ≠ X.getD j 0) :
    (cvxoptSampleConstraints X fX epsilon).isSome = true := by
  apply psdr_mapM_isSome
  intro ij hij
  obtain ⟨h1, h2⟩ := (psdr_mem_pythonPairs ij).mp hij
  have hne : X.getD ij.1 0 - X.getD ij.2 0 ≠ 0 :=
    sub_ne_zero.mpr (hdist ij.1 ij.2 h1 h2)
  have hnorm : ‖toE (X.getD ij.1 0 - X.getD ij.2 0)‖ ≠ 0 := by
    rw [norm_ne_zero_iff]
    exact fun h => hne h
  simp only [cvxoptPairConstraint]
  rw [if_neg hnorm]
  rfl

/-- C8 witness: two distinct points in dimension one. -/
theorem claim8_witness :
    (∀ i j, i < j → j < ([(fun _ => 0), (fun _ => 1)] : List (Fin 1 → ℝ)).length →
      ([(fun _ => 0), (fun _ => 1)] : List (Fin 1 → ℝ)).getD i 0
        ≠ ([(fun _ => 0), (fun _ => 1)] : List (Fin 1 → ℝ)).getD j 0) ∧
    (@cvxoptSampleConstraints 1 [(fun _ => 0), (fun _ => 1)] [0, 1] 0).isSome = true := by
  have hd : ∀ i j, i < j → j < ([(fun _ => 0), (fun _ => 1)] : List (Fin 1 → ℝ)).length →
      ([(fun _ => 0), (fun _ => 1)] : List (Fin 1 → ℝ)).getD i 0
        ≠ ([(fun _ => 0), (fun _ => 1)] : List (Fin 1 → ℝ)).getD j 0 := by
    intro i j hij hj
    have hj2 : j < 2 := hj
    have hi0 : i = 0 := by omega
    have hj1 : j = 1 := by omega
    subst hi0; subst hj1
    simp only [List.getD_cons_zero, List.getD_cons_succ]
    intro h
    have h0 := congrFun h 0
    norm_num at h0
  exact ⟨hd, claim8_amended_distinct_defined _ _ _ hd⟩

/-- C9: for a sample pair with `x_i ≠ x_j` and `p = x_i - x_j`, the
normalized constraint emitted by the cvxopt path — quadratic form of
the unit vector `p/‖p‖` against right-hand side
`(|fX_i - fX_j| - epsilon)^2 / ‖p‖^2` — holds for a matrix `H` exactly
when the unnormalized constraint
`(|fX_i - fX_j| - epsilon)^2 ≤ pᵀ H p` holds: the normalization only
changes the numerical representation. -/
theorem claim9_normalization_equivalence {m : ℕ}
    (H : Matrix (Fin m) (Fin m) ℝ) (p : Fin m → ℝ) (delta epsilon : ℝ)
    (hp : p ≠ 0) :
    ((|delta| - epsilon)^2 / ‖toE p‖^2
        ≤ quadForm H (fun k => p k / ‖toE p‖)) ↔
      (|delta| - epsilon)^2 ≤ quadForm H p := by
  have hn : ‖toE p‖ ≠ 0 := by
    rw [norm_ne_zero_iff]
    exact fun h => hp h
  have hnpos : (0 : ℝ) < ‖toE p‖^2 := by positivity
  have hq : quadForm H (fun k => p k / ‖toE p‖) = quadForm H p / ‖toE p‖^2 := by
    have hfun : (fun k => p k / ‖toE p‖) = (‖toE p‖)⁻¹ • p := by
      funext k
      simp [div_eq_inv_mul]
    rw [hfun]
    unfold quadForm
    rw [Matrix.mulVec_smul, Matrix.dotProduct_smul, Matrix.smul_dotProduct,
      smul_eq_mul, smul_eq_mul, pow_two, div_eq_mul_inv, mul_inv]
    ring
  rw [hq, div_le_div_iff_of_pos_right hnpos]

/-- C9 witness: the unit pair difference in dimension one with the
identity matrix. -/
theorem claim9_witness :
    ((fun _ => 1 : Fin 1 → ℝ) ≠ 0) ∧
    (((|(0 : ℝ)| - 0)^2 / ‖@toE 1 (fun _ => 1)‖^2
        ≤ quadForm (1 : Matrix (Fin 1) (Fin 1) ℝ)
            (fun k => (fun _ => 1 : Fin 1 → ℝ) k / ‖@toE 1 (fun _ => 1)‖)) ↔
      (|(0 : ℝ)| - 0)^2
        ≤ quadForm (1 : Matrix (Fin 1) (Fin 1) ℝ) (fun _ => 1)) := by
  have hp : (fun _ => 1 : Fin 1 → ℝ) ≠ 0 := by
    intro h
    have h0 := congrFun h 0
    norm_num at h0
  exact ⟨hp, claim9_normalization_equivalence 1 (fun _ => 1) 0 0 hp⟩

/-- C10: `LowerBound.grad` and `UpperBound.grad` return exactly the
same Jacobian (the `fX` terms have zero derivative so the two formulas
coincide), every row for a sample at zero transformed distance is
exactly the zero row, and every other row is the subgradient formula
whose denominator is strictly positive — the division is guarded, so
the Jacobian is always finite. -/
theorem claim10_grad_rows {m : ℕ} (L : Matrix (Fin m) (Fin m) ℝ)
    (X : List (Fin m → ℝ)) (x : Fin m → ℝ) :
    lowerBoundGrad L X x = upperBoundGrad L X x ∧
    (∀ G ∈ lowerBoundGrad L X x, ∃ xi ∈ X,
      (‖lvec L x - lvec L xi‖ = 0 ∧ G = 0) ∨
      (0 < ‖lvec L x - lvec L xi‖ ∧
        G = fun j => -((L.mulVec x j - L.mulVec xi j)
          / ‖lvec L x - lvec L xi‖))) := by
  refine ⟨rfl, ?_⟩
  intro G hG
  obtain ⟨xi, hxi, hEq⟩ := List.mem_map.mp hG
  refine ⟨xi, hxi, ?_⟩
  by_cases h : 0 < ‖lvec L x - lvec L xi‖
  · right
    refine ⟨h, ?_⟩
    rw [← hEq]
    simp only [if_pos h]
  · left
    have h0 : ‖lvec L x - lvec L xi‖ = 0 :=
      le_antisymm (not_lt.mp h) (norm_nonneg _)
    refine ⟨h0, ?_⟩
    rw [← hEq]
    simp only [if_neg h]

/-- C10 witness: one sample at the query point itself, whose row is the
guarded zero row. -/
theorem claim10_witness :
    ((0 : Fin 1 → ℝ) ∈ @lowerBoundGrad 1 1 [0] 0) ∧
    (∃ xi ∈ ([0] : List (Fin 1 → ℝ)),
      (‖lvec (1 : Matrix (Fin 1) (Fin 1) ℝ) (0 : Fin 1 → ℝ) - lvec 1 xi‖ = 0 ∧
        (0 : Fin 1 → ℝ) = 0) ∨
      (0 < ‖lvec (1 : Matrix (Fin 1) (Fin 1) ℝ) (0 : Fin 1 → ℝ) - lvec 1 xi‖ ∧
        (0 : Fin 1 → ℝ) = fun j =>
          -(((1 : Matrix (Fin 1) (Fin 1) ℝ).mulVec 0 j
              - (1 : Matrix (Fin 1) (Fin 1) ℝ).mulVec xi j)
            / ‖lvec (1 : Matrix (Fin 1) (Fin 1) ℝ) (0 : Fin 1 → ℝ) - lvec 1 xi‖))) := by
  have hmem : (0 : Fin 1 → ℝ) ∈ @lowerBoundGrad 1 1 [0] 0 := by
    unfold lowerBoundGrad
    simp
  exact ⟨hmem, (claim10_grad_rows 1 [0] 0).2 0 hmem⟩

/-- C1 witness: the program built for two one-dimensional samples has
a trace objective, a minimization direction, and one pair constraint. -/
theorem claim1_witness :
    (@buildLipschitzMatrixCvxpy 1 [(fun _ => 0), (fun _ => 1)] [0, 3] [] 0).minimize
        = true ∧
    (@buildLipschitzMatrixCvxpy 1 [(fun _ => 0), (fun _ => 1)] [0, 3] [] 0).objective
        = Matrix.trace ∧
    (@buildLipschitzMatrixCvxpy 1 [(fun _ => 0), (fun _ => 1)] [0, 3] [] 0).constraints.length
        = 2 * (2 - 1) / 2 + 0 :=
  ⟨(claim1_cvxpy_sdp_formulation [(fun _ => 0), (fun _ => 1)] [0, 3] [] 0 1).1,
   (claim1_cvxpy_sdp_formulation [(fun _ => 0), (fun _ => 1)] [0, 3] [] 0 1).2.1,
   (claim1_cvxpy_sdp_formulation [(fun _ => 0), (fun _ => 1)] [0, 3] [] 0 1).2.2.2⟩
